import Mathlib

/-
Verification of the rust-effects repository against its specification.

The repository's own source (src/main.rs) is a thin host around the
tachyonfx animation engine: it wires a counter and an effect manager into a
render callback and a key-event callback.  The engine itself is an external
crate, so the engine semantics below are modelled from the specification
(sections 2-8): time is measured in whole milliseconds, colors are abstract
rational channel values, and a cell buffer is a total function from grid
coordinates to cells.

Modelling notes, all from the spec's own words:
* CellFilter (spec 4.3) selects cells by their role in the host's static
  layout; since the layout is redrawn identically every frame, the filter is
  represented as a coordinate predicate.
* The Translate re-projection (spec 4.4) computes an interpolated offset
  from its own timer, copies the inner effect's frame for the tick and
  paints it shifted by that offset within its area, clipping at the grid
  edge; cells vacated by the shift keep the buffer's prior content (no
  trailing frame is erased).  Its duration is taken as the maximum of the
  offset timer and the inner effect's duration, so the node is complete
  only once both the movement and its content are (in the program both are
  900 ms).  Translate is the one transform whose output cell reads a
  different input cell, which is what refutes the tick-split invariance
  and parallel-isolation properties on it.
* The circ-in easing curve involves a square root; it is represented by a
  rational ease-in curve satisfying the spec 4.1 contract (0 maps to 0,
  1 maps to 1, monotone).  No claim depends on its exact shape.
* fx::fade_from fades toward the cell's own style; the spec's data model
  (section 3) has Fade(from_color, to_color) with explicit endpoints, and
  that is what is modelled.
-/

namespace RustEffects

/-- A rectangle in grid coordinates (spec section 3, Area). -/
structure Rect where
  x : Nat
  y : Nat
  w : Nat
  h : Nat
deriving DecidableEq

/-- One grid cell: a glyph plus foreground and background color channels
(spec section 3, Cell).  Colors are abstract rational values. -/
structure Cell where
  glyph : Nat
  fg : ℚ
  bg : ℚ
deriving DecidableEq

/-- The cell buffer: a total assignment of cells to grid coordinates
(spec section 3; the engine clamps all writes to an effect's area). -/
def Buffer : Type := Nat → Nat → Cell

/-- Membership of a grid coordinate in a rectangle. -/
def inArea (r : Rect) (x y : Nat) : Bool :=
  decide (r.x ≤ x) && decide (x < r.x + r.w) &&
  decide (r.y ≤ y) && decide (y < r.y + r.h)

/-- Modelled from the spec (4.1): the fixed library of easing curves.
The curves used by the program are quad-in and circ-in; circ-in's
irrational curve is represented by a rational ease-in obeying the same
contract. -/
inductive Interpolation where
  | linear
  | quadIn
  | circIn
deriving DecidableEq

/-- Modelled from the spec (4.1): `ease(0)=0`, `ease(1)=1`, monotone
non-decreasing on [0,1]. -/
def Interpolation.ease : Interpolation → ℚ → ℚ
  | .linear, t => t
  | .quadIn, t => t * t
  | .circIn, t => t * t * t

/-- Modelled from the spec (3, 4.2): the pattern kinds exercised by the
program: no pattern (uniform timing), Radial, Coalesce. -/
inductive Pattern where
  | uniform
  | radial (ox oy : ℚ)
  | coalesce
deriving DecidableEq

/-- Horizontal position of a pattern origin given in fractional coordinates
relative to an area (spec 4.2). -/
def originX (A : Rect) (ox : ℚ) : ℚ := (A.x : ℚ) + ox * (A.w : ℚ)

/-- Vertical position of a pattern origin given in fractional coordinates
relative to an area (spec 4.2). -/
def originY (A : Rect) (oy : ℚ) : ℚ := (A.y : ℚ) + oy * (A.h : ℚ)

/-- Squared Euclidean distance between two rational points. -/
def sqDistQ (x y ox oy : ℚ) : ℚ := (x - ox) * (x - ox) + (y - oy) * (y - oy)

/-- Largest squared distance from the origin point to a corner cell of the
area; normalises radial delays so that cells at maximum distance approach
delay 1 (spec 4.2). -/
def maxCornerSq (A : Rect) (ox oy : ℚ) : ℚ :=
  max
    (max (sqDistQ (A.x : ℚ) (A.y : ℚ) ox oy)
      (sqDistQ ((A.x : ℚ) + (A.w : ℚ) - 1) (A.y : ℚ) ox oy))
    (max (sqDistQ (A.x : ℚ) ((A.y : ℚ) + (A.h : ℚ) - 1) ox oy)
      (sqDistQ ((A.x : ℚ) + (A.w : ℚ) - 1) ((A.y : ℚ) + (A.h : ℚ) - 1) ox oy))

/-- Modelled from the spec (4.2): the Radial pattern's per-cell delay,
zero at the configured origin and increasing monotonically with Euclidean
distance from it, clamped into [0,1].  Stated over squared distances,
which order points exactly as Euclidean distances do. -/
def radialDelay (A : Rect) (ox oy : ℚ) (x y : Nat) : ℚ :=
  min 1 (sqDistQ (x : ℚ) (y : ℚ) (originX A ox) (originY A oy) / maxCornerSq A (originX A ox) (originY A oy))

/-- Modelled from the spec (4.2): the Coalesce pattern's per-cell delay,
approximating row-major reading order; the optional bounded jitter is taken
as zero (spec 9 leaves it as a design choice and recommends determinism). -/
def coalesceDelay (A : Rect) (x y : Nat) : ℚ :=
  (((y - A.y) * A.w + (x - A.x) : Nat) : ℚ) / ((A.w * A.h : Nat) : ℚ)

/-- Per-cell normalized activation delay of a pattern over an area
(spec 4.2). -/
def Pattern.delay : Pattern → Rect → Nat → Nat → ℚ
  | .uniform, _, _, _ => 0
  | .radial ox oy, A, x, y => radialDelay A ox oy x y
  | .coalesce, A, x, y => coalesceDelay A x y

/-- Linear interpolation of a color channel. -/
def lerp (a b t : ℚ) : ℚ := a + (b - a) * t

/-- Total list indexing with a default, used for symbol progressions. -/
def nthSym (l : List Nat) (i : Nat) (d : Nat) : Nat :=
  match l, i with
  | [], _ => d
  | a :: _, 0 => a
  | _ :: l, i + 1 => nthSym l i d

/-- Glyph index into a symbol-density progression of `n` symbols at eased
local progress `t` (spec 4.4: `floor(t * (levels-1))`). -/
def symIndex (n : Nat) (t : ℚ) : Nat := (Int.floor (t * ((n : ℚ) - 1))).toNat

/-- Modelled from the spec (3, 4.4): the terminal per-cell transforms.
Evolve carries its symbol set, target style and direction flag (the
"from" variant runs the glyph progression in reverse index order);
Fade carries its color endpoints and which channels it touches. -/
inductive LeafKind where
  | fade (cFrom cTo : ℚ) (toFg toBg : Bool)
  | evolve (syms : List Nat) (sFg sBg : ℚ) (fromDir : Bool)

/-- Modelled from the spec (4.4): the output of a leaf transform on one
cell at eased local progress `t`.  Fade writes `lerp(from,to,t)` into its
configured channels and leaves the glyph untouched; Evolve selects a glyph
from the progression by `symIndex` and blends both color channels linearly
toward the target style. -/
def applyKind : LeafKind → ℚ → Cell → Cell
  | .fade cFrom cTo toFg toBg, t, c =>
      { c with
        fg := if toFg then lerp cFrom cTo t else c.fg,
        bg := if toBg then lerp cFrom cTo t else c.bg }
  | .evolve syms sFg sBg fromDir, t, c =>
      { glyph := nthSym syms (if fromDir then syms.length - 1 - symIndex syms.length t else symIndex syms.length t) c.glyph,
        fg := lerp c.fg sFg t,
        bg := lerp c.bg sBg t }

/-- Modelled from the spec (3, 6): everything a leaf effect carries: its
transform, explicit duration in milliseconds, easing curve, optional area
(falling back to the manager's default target area when unset), cell
filter and pattern. -/
structure LeafCfg where
  kind : LeafKind
  dur : Nat
  interp : Interpolation
  area : Option Rect
  filt : Nat → Nat → Bool
  pat : Pattern

/-- The area a leaf effect operates on: its own if set, otherwise the
default target area supplied to `process_effects` (spec 4.6). -/
def effArea (cfg : LeafCfg) (defA : Rect) : Rect := cfg.area.getD defA

/-- Global normalized progress of a leaf at cumulative elapsed `e`
milliseconds.  A zero-duration effect jumps to its final frame on the
first tick (spec 4.5 failure semantics). -/
def globalT (dur e : Nat) : ℚ :=
  if dur = 0 then 1 else min 1 ((e : ℚ) / (dur : ℚ))

/-- A cell's local progress given global progress and its pattern delay
(spec 4.2): `clamp((global_t - delay) / (1 - delay), 0, 1)`.  At global
progress 1 the quotient is taken as 1, which resolves the formula's
singular point `delay = 1` consistently with completion. -/
def localProgress (gt d : ℚ) : ℚ :=
  if 1 ≤ gt then 1 else max 0 (min 1 ((gt - d) / (1 - d)))

/-- Modelled from the spec (4.4): Translate's positional offset component
at elapsed `t`: `round(lerp(0, target_offset, eased(global_t)))` along one
axis, driven by the Translate node's own timer. -/
def offAt (tip : Interpolation) (tdur t : Nat) (d : Int) : Int :=
  round (tip.ease (globalT tdur t) * (d : ℚ))

/-- The content of one cell under a leaf effect at cumulative elapsed `e`:
pattern delay, local progress and easing feed the terminal transform. -/
def cellAt (cfg : LeafCfg) (A : Rect) (e : Nat) (x y : Nat) (c : Cell) : Cell :=
  applyKind cfg.kind
    (cfg.interp.ease (localProgress (globalT cfg.dur e) (cfg.pat.delay A x y)))
    c

/-- One frame of a leaf effect painted into the buffer: every cell of the
effect's area passing its filter is transformed, all others are left
untouched (spec 4.3, 4.6). -/
def paintLeaf (cfg : LeafCfg) (defA : Rect) (e : Nat) (buf : Buffer) : Buffer :=
  fun x y =>
    if inArea (effArea cfg defA) x y && cfg.filt x y then
      cellAt cfg (effArea cfg defA) e x y (buf x y)
    else buf x y

/-- The final target state of a cell under a leaf effect: the transform at
progress 1 (spec 8: target glyph/color). -/
def leafFinalCell (cfg : LeafCfg) (c : Cell) : Cell := applyKind cfg.kind 1 c

/-- Modelled from the spec (3): the recursive effect grammar: the
pointwise leaf transforms (Evolve/Fade), the Translate re-projection with
its inner effect, offset vector, own timer and area, and the Sequence,
Parallel, Reversed and ProlongStart combinators.  Child lists are
represented by binary nesting. -/
inductive Fx where
  | leaf (cfg : LeafCfg)
  | translate (inner : Fx) (dx dy : Int) (tdur : Nat) (tip : Interpolation) (tarea : Rect)
  | seqFx (a b : Fx)
  | parFx (a b : Fx)
  | revFx (a : Fx)
  | prolongStart (d : Nat) (a : Fx)

/-- Total duration of an effect (spec 4.5): explicit for leaves, the
maximum of the offset timer and the inner duration for Translate, sum for
Sequence, max for Parallel, unchanged for Reversed, delay plus inner
duration for ProlongStart. -/
def durF : Fx → Nat
  | .leaf cfg => cfg.dur
  | .translate inner _ _ tdur _ _ => max tdur (durF inner)
  | .seqFx a b => durF a + durF b
  | .parFx a b => max (durF a) (durF b)
  | .revFx a => durF a
  | .prolongStart d a => d + durF a

/-- Completion at cumulative elapsed `e` (spec 4.5, 4.6): a leaf is
complete once its duration is consumed, a Sequence once every child has
consumed its share, a Parallel only when all children are complete,
Reversed when its unchanged duration is consumed, ProlongStart once the
hold has passed and the inner effect is complete on the remainder. -/
def completeF : Fx → Nat → Bool
  | .leaf cfg, e => decide (cfg.dur ≤ e)
  | .translate inner _ _ tdur _ _, e => decide (max tdur (durF inner) ≤ e)
  | .seqFx a b, e => completeF a e && completeF b (e - durF a)
  | .parFx a b, e => completeF a e && completeF b e
  | .revFx a, e => decide (durF a ≤ e)
  | .prolongStart d a, e => decide (d ≤ e) && completeF a (e - d)

/-- The frame an effect shows at absolute local time `t` (spec 4.4, 4.5):
a Sequence routes to its active child, a Parallel paints its children in
list order (later children on top), Reversed feeds its inner effect
`duration - t`, ProlongStart holds the inner effect's frame at local time
0 until its delay has passed. -/
def renderAt : Fx → Rect → Nat → Buffer → Buffer
  | .leaf cfg, defA, t, buf => paintLeaf cfg defA t buf
  | .translate inner dx dy tdur tip tarea, defA, t, buf =>
      fun x y =>
        if inArea tarea x y && decide (0 ≤ (x : ℤ) - offAt tip tdur t dx)
            && decide (0 ≤ (y : ℤ) - offAt tip tdur t dy) then
          renderAt inner defA t buf
            ((x : ℤ) - offAt tip tdur t dx).toNat ((y : ℤ) - offAt tip tdur t dy).toNat
        else buf x y
  | .seqFx a b, defA, t, buf =>
      if t < durF a then renderAt a defA t buf
      else renderAt b defA (t - durF a) buf
  | .parFx a b, defA, t, buf => renderAt b defA t (renderAt a defA t buf)
  | .revFx a, defA, t, buf => renderAt a defA (durF a - min t (durF a)) buf
  | .prolongStart d a, defA, t, buf => renderAt a defA (t - d) buf

/-- One tick of an effect, advancing its cumulative elapsed time from `e`
to `e2` and painting into the buffer (spec 4.5, 4.6).  A Sequence gives
the tick to its active child first; when that child reaches completion
within the tick it paints its final frame and the remaining time is
carried into the next child in the same tick (no dropped time); children
already complete before the tick are not repainted.  A Parallel hands the
full tick to every child.  Reversed paints its inner effect's frame at
`duration - elapsed`.  ProlongStart paints the inner effect at local time
0 while `elapsed < delay` and feeds it `elapsed - delay` afterwards. -/
def paintTick : Fx → Rect → Nat → Nat → Buffer → Buffer
  | .leaf cfg, defA, _, e2, buf => paintLeaf cfg defA e2 buf
  | .translate inner dx dy tdur tip tarea, defA, _, e2, buf =>
      renderAt (.translate inner dx dy tdur tip tarea) defA e2 buf
  | .seqFx a b, defA, e, e2, buf =>
      if e2 < durF a then paintTick a defA e e2 buf
      else if 0 < e ∧ durF a ≤ e then paintTick b defA (e - durF a) (e2 - durF a) buf
      else paintTick b defA 0 (e2 - durF a) (paintTick a defA e (durF a) buf)
  | .parFx a b, defA, e, e2, buf => paintTick b defA e e2 (paintTick a defA e e2 buf)
  | .revFx a, defA, _, e2, buf => renderAt a defA (durF a - min e2 (durF a)) buf
  | .prolongStart d a, defA, e, e2, buf =>
      if e2 < d then renderAt a defA 0 buf
      else paintTick a defA (e - d) (e2 - d) buf

/-- Processing an effect over a list of tick deltas (spec 5: one
`paintTick` per rendered frame), returning the cumulative elapsed time and
the mutated buffer. -/
def processTicks : Fx → Rect → Nat → List Nat → Buffer → Nat × Buffer
  | _, _, e, [], buf => (e, buf)
  | f, defA, e, d :: ds, buf => processTicks f defA (e + d) ds (paintTick f defA e (e + d) buf)

/-- The write footprint of an effect: the cells its paints may change
(area intersected with filter, united over children). -/
def touches : Fx → Rect → Nat → Nat → Bool
  | .leaf cfg, defA, x, y => inArea (effArea cfg defA) x y && cfg.filt x y
  | .translate _ _ _ _ _ tarea, _, x, y => inArea tarea x y
  | .seqFx a b, defA, x, y => touches a defA x y || touches b defA x y
  | .parFx a b, defA, x, y => touches a defA x y || touches b defA x y
  | .revFx a, defA, x, y => touches a defA x y
  | .prolongStart _ a, defA, x, y => touches a defA x y

/-- Whether an effect computes each output cell from that cell alone: true
for the Evolve/Fade leaves and preserved by the time combinators, false as
soon as a Translate occurs, since its re-projection reads a shifted source
cell. -/
def pointwiseFx : Fx → Bool
  | .leaf _ => true
  | .translate _ _ _ _ _ _ => false
  | .seqFx a b => pointwiseFx a && pointwiseFx b
  | .parFx a b => pointwiseFx a && pointwiseFx b
  | .revFx a => pointwiseFx a
  | .prolongStart _ a => pointwiseFx a

/-- The effect manager's root set: each root effect paired with its
cumulative elapsed time (spec 3, 4.6).  Created empty at process start. -/
structure EffectManager where
  roots : List (Fx × Nat)

/-- `add_effect` (spec 4.6): inserts the effect as a new root beginning at
elapsed 0; always succeeds. -/
def EffectManager.addEffect (m : EffectManager) (f : Fx) : EffectManager :=
  ⟨m.roots ++ [(f, 0)]⟩

/-- One pass over the roots (spec 4.6): each root advances by the tick's
delta, paints into the buffer in insertion order, and is dropped once
complete. -/
def processRoots : List (Fx × Nat) → Nat → Rect → Buffer → List (Fx × Nat) × Buffer
  | [], _, _, buf => ([], buf)
  | (f, e) :: rs, delta, defA, buf =>
      let buf2 := paintTick f defA e (e + delta) buf
      let rest := processRoots rs delta defA buf2
      (if completeF f (e + delta) then rest.1 else (f, e + delta) :: rest.1, rest.2)

/-- `process_effects(delta, buffer, default_area)` (spec 4.6): advances and
renders every root and drops the completed ones. -/
def EffectManager.processEffects (m : EffectManager) (delta : Nat) (buf : Buffer) (defA : Rect) :
    EffectManager × Buffer :=
  let pr := processRoots m.roots delta defA buf
  (⟨pr.1⟩, pr.2)

/-
The host application, translated from src/main.rs.
-/

/-- Key events delivered by the host (src/main.rs lines 96-107 match on
Left, Right, Char('f') and a catch-all). -/
inductive KeyCode where
  | left
  | right
  | char (c : Char)
  | other
deriving DecidableEq

/-- `u8::saturating_add`, on the counter's value range. -/
def u8SatAdd (a b : Nat) : Nat := min (a + b) 255

/-- `u8::saturating_sub` (truncated natural subtraction). -/
def u8SatSub (a b : Nat) : Nat := a - b

/-- The App state (src/main.rs lines 36-40): a u8 counter and an effect
manager, both Default-constructed at process start. -/
structure AppState where
  counter : Nat
  effects : EffectManager

/-- `App::default()`: counter 0, empty effect manager. -/
def AppState.init : AppState := ⟨0, ⟨[]⟩⟩

/-- `Color::from_u32`; colors are abstract channel values in the model. -/
def colorFromU32 (n : Nat) : ℚ := (n : ℚ)

/-- `0x1D2021`, the screen background (src/main.rs line 118). -/
def screenBg : ℚ := colorFromU32 0x1D2021

/-- `0x32302F`, the content background (src/main.rs line 119). -/
def contentBg : ℚ := colorFromU32 0x32302F

/-- The code-snippet rectangle (src/main.rs line 116). -/
def codeArea : Rect := ⟨12, 12, 80, 17⟩

/-- Modelled from the spec (4.4): EvolveSymbolSet::Shaded, a
symbol-density progression; representative code points. -/
def shadedSymbols : List Nat := [0x2591, 0x2592, 0x2593, 0x2588]

/-- Modelled from the spec (4.4): EvolveSymbolSet::Quadrants. -/
def quadrantSymbols : List Nat := [0x2596, 0x2597, 0x259E, 0x259A, 0x2588]

/-- Modelled from the spec (4.3): CellFilter::Text selects the cells that
carry rendered text in the host's static layout.  The layout itself is
outside the engine model, so the selection is the trivial predicate; no
verified claim depends on its extension. -/
def textFilter : Nat → Nat → Bool := fun _ _ => true

/-- Phase 1 of the fire effect (src/main.rs lines 127-129): a Shaded
evolve over 300 ms with circ-in easing, radial pattern at origin
(0.5, 0.5), on the code area. -/
def startupFx : Fx :=
  .leaf
    { kind := .evolve shadedSymbols contentBg screenBg false
      dur := 300
      interp := .circIn
      area := some codeArea
      filt := fun _ _ => true
      pat := .radial (1 / 2) (1 / 2) }

/-- The inner fire effect (src/main.rs lines 132-135): a reversed
Quadrants evolve_from over 900 ms with quad-in easing and coalesce
pattern on the code area. -/
def innerFireFx : Fx :=
  .revFx
    (.leaf
      { kind := .evolve quadrantSymbols contentBg screenBg true
        dur := 900
        interp := .quadIn
        area := some codeArea
        filt := fun _ _ => true
        pat := .coalesce })

/-- Phase 2 of the fire effect (src/main.rs lines 138-139): the inner fire
translated upward by offset (0, -22) over the 900 ms quad-in timer, scoped
to the code area. -/
def fireFx : Fx :=
  .translate innerFireFx 0 (-22) 900 .quadIn codeArea

/-- Phase 3 of the fire effect (src/main.rs lines 142-145): a 900 ms fade
from the screen background, filtered to text cells, coalesce pattern, on
the code area. -/
def fadeInTextFx : Fx :=
  .leaf
    { kind := .fade screenBg screenBg true true
      dur := 900
      interp := .quadIn
      area := some codeArea
      filt := textFilter
      pat := .coalesce }

/-- The 300 ms fade inside the parallel phase (src/main.rs line 152); it
sets no area of its own, so it falls back to the default target area. -/
def fade300Fx : Fx :=
  .leaf
    { kind := .fade screenBg screenBg true true
      dur := 300
      interp := .linear
      area := none
      filt := fun _ _ => true
      pat := .uniform }

/-- The orchestrated fire effect (src/main.rs lines 148-154):
prolong_start(300, sequence(startup, parallel(fade300, fire, fade_in))). -/
def fireEffect : Fx :=
  .prolongStart 300 (.seqFx startupFx (.parFx fade300Fx (.parFx fireFx fadeInTextFx)))

/-- `App::trigger_fire_effect` (src/main.rs lines 109-158): builds the fire
effect and adds it to the manager. -/
def App.triggerFireEffect (s : AppState) : AppState :=
  { s with effects := s.effects.addEffect fireEffect }

/-- `App::handle_events` (src/main.rs lines 96-107): Left saturating-
decrements the counter, Right saturating-increments it, 'f' triggers the
fire effect, everything else is ignored. -/
def App.handleEvents (s : AppState) (k : KeyCode) : AppState :=
  match k with
  | .left => { s with counter := u8SatSub s.counter 1 }
  | .right => { s with counter := u8SatAdd s.counter 1 }
  | .char c => if c = 'f' then App.triggerFireEffect s else s
  | .other => s

/-- A render frame as handed to the render callback: the cell buffer and
the frame's full area. -/
structure Frame where
  buf : Buffer
  area : Rect

/-- `App::render` (src/main.rs lines 43-94): draws the static widget into
the frame (`draw` stands for the out-of-scope ratatui paragraph render,
spec section 1), then calls `process_effects` exactly once with a fixed
16 ms delta, the frame's buffer, and the frame's full area as the default
target area. -/
def App.render (draw : Nat → Buffer → Buffer) (s : AppState) (fr : Frame) :
    AppState × Frame :=
  let b1 := draw s.counter fr.buf
  let pr := s.effects.processEffects 16 b1 fr.area
  ({ s with effects := pr.1 }, { fr with buf := pr.2 })

/-
RefCell borrow discipline of the App callbacks (src/main.rs lines 44, 92,
97, 102, 156), modelled as traces over a runtime-checked borrow-state
machine.
-/

/-- The two RefCells owned by App (src/main.rs lines 38-39). -/
inductive BorrowCell where
  | counter
  | effects
deriving DecidableEq

/-- Borrow events: acquiring a shared borrow, acquiring a mutable borrow,
releasing the current borrow of a cell. -/
inductive BorrowOp where
  | acqShared (c : BorrowCell)
  | acqMut (c : BorrowCell)
  | rel (c : BorrowCell)
deriving DecidableEq

/-- Runtime borrow flags of the two cells. -/
structure BorrowState where
  counterShared : Nat
  counterMut : Bool
  effectsShared : Nat
  effectsMut : Bool
deriving DecidableEq

/-- Both cells unborrowed. -/
def borrowFree : BorrowState := ⟨0, false, 0, false⟩

/-- RefCell dynamics: a mutable borrow panics (`none`) if the cell is
borrowed in any way, a shared borrow panics if the cell is mutably
borrowed; releasing drops the mutable borrow if one is held, otherwise one
shared borrow. -/
def stepBorrow (s : BorrowState) : BorrowOp → Option BorrowState
  | .acqShared .counter =>
      if s.counterMut then none else some { s with counterShared := s.counterShared + 1 }
  | .acqShared .effects =>
      if s.effectsMut then none else some { s with effectsShared := s.effectsShared + 1 }
  | .acqMut .counter =>
      if s.counterMut || decide (0 < s.counterShared) then none
      else some { s with counterMut := true }
  | .acqMut .effects =>
      if s.effectsMut || decide (0 < s.effectsShared) then none
      else some { s with effectsMut := true }
  | .rel .counter =>
      if s.counterMut then some { s with counterMut := false }
      else some { s with counterShared := s.counterShared - 1 }
  | .rel .effects =>
      if s.effectsMut then some { s with effectsMut := false }
      else some { s with effectsShared := s.effectsShared - 1 }

/-- Each cell carries at most one borrow of either kind. -/
def atMostOnce (s : BorrowState) : Bool :=
  decide (s.counterShared + (if s.counterMut then 1 else 0) ≤ 1) &&
  decide (s.effectsShared + (if s.effectsMut then 1 else 0) ≤ 1)

/-- Runs a borrow trace: `false` as soon as a step panics or some cell is
borrowed more than once. -/
def runChecked : BorrowState → List BorrowOp → Bool
  | _, [] => true
  | s, op :: ops =>
      match stepBorrow s op with
      | none => false
      | some s2 => atMostOnce s2 && runChecked s2 ops

/-- Borrow trace of one `App::handle_events` invocation: the counter cell
is mutably borrowed on entry (line 97) and released either by the explicit
`drop` (line 102, 'f' branch) before `trigger_fire_effect` mutably borrows
the effects cell (line 156), or at end of scope. -/
def handleEventsTrace (k : KeyCode) : List BorrowOp :=
  match k with
  | .left => [.acqMut .counter, .rel .counter]
  | .right => [.acqMut .counter, .rel .counter]
  | .char c =>
      if c = 'f' then
        [.acqMut .counter, .rel .counter, .acqMut .effects, .rel .effects]
      else [.acqMut .counter, .rel .counter]
  | .other => [.acqMut .counter, .rel .counter]

/-- Borrow trace of one `App::render` invocation: a shared borrow of the
counter cell (line 44) held to end of scope, and a mutable borrow of the
effects cell (line 92) held through `process_effects`; guards drop in
reverse order at end of scope. -/
def renderTrace : List BorrowOp :=
  [.acqShared .counter, .acqMut .effects, .rel .effects, .rel .counter]

/-- The buffer a leaf effect leaves behind once complete: every cell of its
area passing its filter holds the final target state, all others are
untouched. -/
def finalPaint (cfg : LeafCfg) (defA : Rect) (buf : Buffer) : Buffer :=
  fun x y =>
    if inArea (effArea cfg defA) x y && cfg.filt x y then
      applyKind cfg.kind 1 (buf x y)
    else buf x y

/-- A concrete buffer for instantiating the verified properties. -/
def wBuf : Buffer := fun _ _ => ⟨65, 7, 7⟩

/-- A concrete default target area for instantiating the verified
properties. -/
def wArea : Rect := ⟨0, 0, 10, 10⟩

/-- A concrete leaf configuration (3 ms fade) for instantiating the
verified properties. -/
def wCfgFade : LeafCfg :=
  { kind := .fade 0 100 true true
    dur := 3
    interp := .linear
    area := some ⟨0, 0, 2, 2⟩
    filt := fun _ _ => true
    pat := .uniform }

/-- A concrete 2 ms leaf effect on the cells near the origin. -/
def wFxA : Fx :=
  .leaf
    { kind := .fade 0 10 true true
      dur := 2
      interp := .linear
      area := some ⟨0, 0, 2, 2⟩
      filt := fun _ _ => true
      pat := .uniform }

/-- A concrete 3 ms leaf effect on a disjoint cell region. -/
def wFxB : Fx :=
  .leaf
    { kind := .fade 0 20 true true
      dur := 3
      interp := .quadIn
      area := some ⟨5, 5, 2, 2⟩
      filt := fun _ _ => true
      pat := .uniform }

/-- A constant-color 1 ms fade on the single cell (0,0). -/
def cxA : Fx :=
  .leaf
    { kind := .fade 5 5 true true
      dur := 1
      interp := .linear
      area := some ⟨0, 0, 1, 1⟩
      filt := fun _ _ => true
      pat := .uniform }

/-- A leaf effect with a zero-size area: it paints nothing (spec 7,
degenerate geometry is a silent no-op). -/
def cxNoop : Fx :=
  .leaf
    { kind := .fade 0 0 true true
      dur := 1
      interp := .linear
      area := some ⟨0, 0, 0, 0⟩
      filt := fun _ _ => true
      pat := .uniform }

/-- A 1 ms Translate writing only cell (1,0), whose shifted source at full
offset is cell (0,0). -/
def cxB : Fx := .translate cxNoop 1 0 1 .linear ⟨1, 0, 1, 1⟩

/-- A constant-color 1 ms fade on the single cell (0,0), painting color 9. -/
def cxInner : Fx :=
  .leaf
    { kind := .fade 9 9 true true
      dur := 1
      interp := .linear
      area := some ⟨0, 0, 1, 1⟩
      filt := fun _ _ => true
      pat := .uniform }

/-- A 2 ms Translate leaf shifting `cxInner`'s painted cell rightward by up
to 2 over the row of cells (0,0) to (2,0). -/
def cxT : Fx := .translate cxInner 2 0 2 .linear ⟨0, 0, 3, 1⟩

/-
Helper lemmas about the engine model.
-/

theorem ease_one (i : Interpolation) : i.ease 1 = 1 := by
  cases i <;> simp [Interpolation.ease]

theorem lerp_one (a b : ℚ) : lerp a b 1 = b := by
  unfold lerp; ring

theorem nthSym_indep (l : List Nat) :
    ∀ i, i < l.length → ∀ d1 d2, nthSym l i d1 = nthSym l i d2 := by
  induction l with
  | nil => intro i h; simp at h
  | cons a l ih =>
      intro i h d1 d2
      cases i with
      | zero => rfl
      | succ i =>
          exact ih i (by simp only [List.length_cons] at h; omega) d1 d2

theorem symIndex_one (n : Nat) : symIndex n 1 = n - 1 := by
  unfold symIndex
  have h : (1 : ℚ) * ((n : ℚ) - 1) = (((n : ℤ) - 1 : ℤ) : ℚ) := by push_cast; ring
  rw [h, Int.floor_intCast]
  omega

theorem applyKind_one_absorb (k : LeafKind) (t : ℚ) (c : Cell) :
    applyKind k 1 (applyKind k t c) = applyKind k 1 c := by
  cases k with
  | fade cf ct tf tb => cases tf <;> cases tb <;> simp [applyKind]
  | evolve syms sfg sbg fd =>
      cases syms with
      | nil => simp [applyKind, nthSym, lerp_one]
      | cons a l =>
          have hlt : (if fd then (a :: l).length - 1 - symIndex (a :: l).length 1
              else symIndex (a :: l).length 1) < (a :: l).length := by
            cases fd <;> simp [symIndex_one] <;> omega
          simp [applyKind, lerp_one]
          exact nthSym_indep _ _ hlt _ _

theorem globalT_final (dur e : Nat) (h : dur ≤ e) : globalT dur e = 1 := by
  unfold globalT
  by_cases h0 : dur = 0
  · simp [h0]
  · have hd : (0 : ℚ) < (dur : ℚ) := by
      exact_mod_cast Nat.pos_of_ne_zero h0
    have h1 : (1 : ℚ) ≤ (e : ℚ) / (dur : ℚ) := by
      rw [le_div_iff hd, one_mul]
      exact_mod_cast h
    simp [h0, min_eq_left h1]

theorem localProgress_one (d : ℚ) : localProgress 1 d = 1 := by
  simp [localProgress]

theorem cellAt_final (cfg : LeafCfg) (A : Rect) (e x y : Nat) (c : Cell)
    (h : cfg.dur ≤ e) : cellAt cfg A e x y c = applyKind cfg.kind 1 c := by
  unfold cellAt
  rw [globalT_final _ _ h, localProgress_one, ease_one]

theorem paintLeaf_final (cfg : LeafCfg) (defA : Rect) (e : Nat) (buf : Buffer)
    (h : cfg.dur ≤ e) : paintLeaf cfg defA e buf = finalPaint cfg defA buf := by
  funext x y
  unfold paintLeaf finalPaint
  by_cases hc : (inArea (effArea cfg defA) x y && cfg.filt x y) = true
  · simp [hc, cellAt_final cfg (effArea cfg defA) e x y (buf x y) h]
  · simp [hc]

theorem finalPaint_absorb (cfg : LeafCfg) (defA : Rect) (e : Nat) (buf : Buffer) :
    finalPaint cfg defA (paintLeaf cfg defA e buf) = finalPaint cfg defA buf := by
  funext x y
  unfold finalPaint paintLeaf
  by_cases hc : (inArea (effArea cfg defA) x y && cfg.filt x y) = true
  · simp [hc, cellAt, applyKind_one_absorb]
  · simp [hc]

theorem processTicks_fst (ds : List Nat) :
    ∀ (f : Fx) (defA : Rect) (e : Nat) (buf : Buffer),
      (processTicks f defA e ds buf).1 = e + ds.sum := by
  induction ds with
  | nil => intro f defA e buf; simp [processTicks]
  | cons d ds ih =>
      intro f defA e buf
      simp only [processTicks, ih, List.sum_cons]
      omega

theorem processTicks_leaf_final (cfg : LeafCfg) (defA : Rect) (ds : List Nat) :
    ∀ (e : Nat) (buf : Buffer), ds ≠ [] → cfg.dur ≤ e + ds.sum →
      (processTicks (.leaf cfg) defA e ds buf).2 = finalPaint cfg defA buf := by
  induction ds with
  | nil => intro e buf h; exact absurd rfl h
  | cons d ds ih =>
      intro e buf _ hD
      cases ds with
      | nil =>
          simp only [processTicks, paintTick]
          exact paintLeaf_final cfg defA (e + d) buf
            (by simp [List.sum_cons] at hD; omega)
      | cons d2 ds2 =>
          rw [show processTicks (Fx.leaf cfg) defA e (d :: d2 :: ds2) buf =
            processTicks (Fx.leaf cfg) defA (e + d) (d2 :: ds2)
              (paintTick (Fx.leaf cfg) defA e (e + d) buf) from rfl]
          rw [ih (e + d) _ (by simp)
            (by simp [List.sum_cons] at hD ⊢; omega)]
          simpa only [paintTick] using
            finalPaint_absorb cfg defA (e + d) buf

theorem completeF_iff (f : Fx) : ∀ e, completeF f e = true ↔ durF f ≤ e := by
  induction f with
  | leaf cfg => intro e; simp [completeF, durF]
  | translate inner dx dy tdur tip tarea ih => intro e; simp [completeF, durF]
  | seqFx a b iha ihb =>
      intro e
      simp only [completeF, durF, Bool.and_eq_true, iha, ihb]
      omega
  | parFx a b iha ihb =>
      intro e
      simp only [completeF, durF, Bool.and_eq_true, iha, ihb]
      omega
  | revFx a ih => intro e; simp [completeF, durF]
  | prolongStart d a ih =>
      intro e
      simp only [completeF, durF, Bool.and_eq_true, ih, decide_eq_true_eq]
      omega

theorem renderAt_untouched (f : Fx) :
    ∀ (defA : Rect) (x y : Nat), touches f defA x y = false →
      ∀ t buf, renderAt f defA t buf x y = buf x y := by
  induction f with
  | leaf cfg =>
      intro defA x y h t buf
      unfold touches at h
      simp [renderAt, paintLeaf, h]
  | translate inner dx dy tdur tip tarea ih =>
      intro defA x y h t buf
      unfold touches at h
      simp [renderAt, h]
  | seqFx a b iha ihb =>
      intro defA x y h t buf
      simp only [touches, Bool.or_eq_false_iff] at h
      by_cases ht : t < durF a <;>
        simp [renderAt, ht, iha defA x y h.1, ihb defA x y h.2]
  | parFx a b iha ihb =>
      intro defA x y h t buf
      simp only [touches, Bool.or_eq_false_iff] at h
      simp [renderAt, iha defA x y h.1, ihb defA x y h.2]
  | revFx a ih =>
      intro defA x y h t buf
      exact ih defA x y h _ buf
  | prolongStart d a ih =>
      intro defA x y h t buf
      exact ih defA x y h _ buf

theorem paintTick_untouched (f : Fx) :
    ∀ (defA : Rect) (x y : Nat), touches f defA x y = false →
      ∀ e e2 buf, paintTick f defA e e2 buf x y = buf x y := by
  induction f with
  | leaf cfg =>
      intro defA x y h e e2 buf
      unfold touches at h
      simp [paintTick, paintLeaf, h]
  | translate inner dx dy tdur tip tarea ih =>
      intro defA x y h e e2 buf
      exact renderAt_untouched (.translate inner dx dy tdur tip tarea) defA x y h e2 buf
  | seqFx a b iha ihb =>
      intro defA x y h e e2 buf
      simp only [touches, Bool.or_eq_false_iff] at h
      by_cases h1 : e2 < durF a
      · simp [paintTick, h1, iha defA x y h.1]
      · by_cases h2 : 0 < e ∧ durF a ≤ e <;>
          simp [paintTick, h1, h2, iha defA x y h.1, ihb defA x y h.2]
  | parFx a b iha ihb =>
      intro defA x y h e e2 buf
      simp only [touches, Bool.or_eq_false_iff] at h
      simp [paintTick, iha defA x y h.1, ihb defA x y h.2]
  | revFx a ih =>
      intro defA x y h e e2 buf
      exact renderAt_untouched a defA x y h _ buf
  | prolongStart d a ih =>
      intro defA x y h e e2 buf
      by_cases h1 : e2 < d <;>
        simp [paintTick, h1, renderAt_untouched a defA x y h, ih defA x y h]

theorem renderAt_pointwise (f : Fx) :
    ∀ (defA : Rect) (x y t : Nat) (buf1 buf2 : Buffer), pointwiseFx f = true →
      buf1 x y = buf2 x y →
      renderAt f defA t buf1 x y = renderAt f defA t buf2 x y := by
  induction f with
  | leaf cfg =>
      intro defA x y t buf1 buf2 _ h
      unfold renderAt paintLeaf
      by_cases hc : (inArea (effArea cfg defA) x y && cfg.filt x y) = true <;>
        simp [hc, h]
  | translate inner dx dy tdur tip tarea ih =>
      intro defA x y t buf1 buf2 hp h
      simp only [pointwiseFx] at hp
      exact absurd hp (by simp)
  | seqFx a b iha ihb =>
      intro defA x y t buf1 buf2 hp h
      simp only [pointwiseFx, Bool.and_eq_true] at hp
      by_cases ht : t < durF a <;>
        simp [renderAt, ht, iha defA x y _ buf1 buf2 hp.1 h, ihb defA x y _ buf1 buf2 hp.2 h]
  | parFx a b iha ihb =>
      intro defA x y t buf1 buf2 hp h
      simp only [pointwiseFx, Bool.and_eq_true] at hp
      exact ihb defA x y t _ _ hp.2 (iha defA x y t buf1 buf2 hp.1 h)
  | revFx a ih =>
      intro defA x y t buf1 buf2 hp h
      exact ih defA x y _ buf1 buf2 hp h
  | prolongStart d a ih =>
      intro defA x y t buf1 buf2 hp h
      exact ih defA x y _ buf1 buf2 hp h

theorem paintTick_pointwise (f : Fx) :
    ∀ (defA : Rect) (x y e e2 : Nat) (buf1 buf2 : Buffer), pointwiseFx f = true →
      buf1 x y = buf2 x y →
      paintTick f defA e e2 buf1 x y = paintTick f defA e e2 buf2 x y := by
  induction f with
  | leaf cfg =>
      intro defA x y e e2 buf1 buf2 _ h
      unfold paintTick paintLeaf
      by_cases hc : (inArea (effArea cfg defA) x y && cfg.filt x y) = true <;>
        simp [hc, h]
  | translate inner dx dy tdur tip tarea ih =>
      intro defA x y e e2 buf1 buf2 hp h
      simp only [pointwiseFx] at hp
      exact absurd hp (by simp)
  | seqFx a b iha ihb =>
      intro defA x y e e2 buf1 buf2 hp h
      simp only [pointwiseFx, Bool.and_eq_true] at hp
      by_cases h1 : e2 < durF a
      · simp [paintTick, h1, iha defA x y _ _ buf1 buf2 hp.1 h]
      · by_cases h2 : 0 < e ∧ durF a ≤ e
        · simp [paintTick, h1, h2, ihb defA x y _ _ buf1 buf2 hp.2 h]
        · simp only [paintTick, if_neg h1, if_neg h2]
          exact ihb defA x y _ _ _ _ hp.2 (iha defA x y _ _ buf1 buf2 hp.1 h)
  | parFx a b iha ihb =>
      intro defA x y e e2 buf1 buf2 hp h
      simp only [pointwiseFx, Bool.and_eq_true] at hp
      exact ihb defA x y e e2 _ _ hp.2 (iha defA x y e e2 buf1 buf2 hp.1 h)
  | revFx a ih =>
      intro defA x y e e2 buf1 buf2 hp h
      exact renderAt_pointwise a defA x y _ buf1 buf2 hp h
  | prolongStart d a ih =>
      intro defA x y e e2 buf1 buf2 hp h
      by_cases h1 : e2 < d
      · simp only [paintTick, if_pos h1]
        exact renderAt_pointwise a defA x y _ buf1 buf2 hp h
      · simp only [paintTick, if_neg h1]
        exact ih defA x y _ _ buf1 buf2 hp h

theorem fadeConst (q t : ℚ) (c : Cell) :
    applyKind (.fade q q true true) t c = ⟨c.glyph, q, q⟩ := by
  simp [applyKind, lerp]

theorem offAt_dzero (tip : Interpolation) (tdur t : Nat) : offAt tip tdur t 0 = 0 := by
  simp [offAt]

theorem offAt_lin_1_1_1 : offAt .linear 1 1 1 = 1 := by
  have hg : globalT 1 1 = 1 := globalT_final 1 1 (le_refl 1)
  rw [offAt, hg]
  have h : (Interpolation.ease .linear 1 : ℚ) * ((1 : ℤ) : ℚ) = ((1 : ℤ) : ℚ) := by
    norm_num [Interpolation.ease]
  rw [h, round_intCast]

theorem offAt_lin_2_1_2 : offAt .linear 2 1 2 = 1 := by
  have hg : globalT 2 1 = 1 / 2 := by
    rw [globalT]
    norm_num [min_def]
  rw [offAt, hg]
  have h : (Interpolation.ease .linear (1 / 2) : ℚ) * ((2 : ℤ) : ℚ) = ((1 : ℤ) : ℚ) := by
    norm_num [Interpolation.ease]
  rw [h, round_intCast]

theorem offAt_lin_2_2_2 : offAt .linear 2 2 2 = 2 := by
  have hg : globalT 2 2 = 1 := globalT_final 2 2 (le_refl 2)
  rw [offAt, hg]
  have h : (Interpolation.ease .linear 1 : ℚ) * ((2 : ℤ) : ℚ) = ((2 : ℤ) : ℚ) := by
    norm_num [Interpolation.ease]
  rw [h, round_intCast]

/-
The claims.
-/

/-- Claim C1, as amended: for any Evolve or Fade leaf effect with duration
D (the pointwise terminal transforms; the Translate re-projection is
excluded, as forced by `claim_c1_counterexample`), once ticks summing to
at least D have been processed, the effect reports Complete, every cell of
its area passing its filter holds exactly the final target state (the
transform at progress 1), and the resulting buffer is the same for every
way of splitting the elapsed time across ticks. -/
theorem claim_c1 (cfg : LeafCfg) (defA : Rect) (ds ds2 : List Nat) (buf : Buffer)
    (hne : ds ≠ []) (hne2 : ds2 ≠ []) (hD : cfg.dur ≤ ds.sum) (hsum : ds2.sum = ds.sum) :
    completeF (Fx.leaf cfg) (processTicks (Fx.leaf cfg) defA 0 ds buf).1 = true
    ∧ (∀ x y, (inArea (effArea cfg defA) x y && cfg.filt x y) = true →
        (processTicks (Fx.leaf cfg) defA 0 ds buf).2 x y = leafFinalCell cfg (buf x y))
    ∧ (processTicks (Fx.leaf cfg) defA 0 ds2 buf).2
        = (processTicks (Fx.leaf cfg) defA 0 ds buf).2 := by
  refine ⟨?_, ?_, ?_⟩
  · rw [processTicks_fst]
    simp only [completeF, decide_eq_true_eq]
    omega
  · intro x y hxy
    rw [processTicks_leaf_final cfg defA ds 0 buf hne (by omega)]
    unfold finalPaint leafFinalCell
    simp [hxy]
  · rw [processTicks_leaf_final cfg defA ds 0 buf hne (by omega),
      processTicks_leaf_final cfg defA ds2 0 buf hne2 (by omega)]

/-- Witness for C1 at a concrete 3 ms fade, comparing the tick splits
[2,1] and [1,1,1]. -/
theorem claim_c1_witness :
    (([2, 1] : List Nat) ≠ [] ∧ wCfgFade.dur ≤ ([2, 1] : List Nat).sum)
    ∧ (processTicks (Fx.leaf wCfgFade) wArea 0 [1, 1, 1] wBuf).2
        = (processTicks (Fx.leaf wCfgFade) wArea 0 [2, 1] wBuf).2 := by
  have h := claim_c1 wCfgFade wArea [2, 1] [1, 1, 1] wBuf
    (by decide) (by decide) (by decide) (by decide)
  exact ⟨⟨by decide, by decide⟩, h.2.2⟩

/-- Counterexample to C1 as stated: the spec counts Translate among the
leaf transforms (sections 3, 4.4 and the glossary), and for the concrete
2 ms Translate `cxT` the final buffer is not invariant under the tick
split: two 1 ms ticks leave the intermediate offset's paint at cell (1,0)
(the vacated cell keeps its prior content, no trailing frame is erased),
while a single 2 ms tick never paints that cell. -/
theorem claim_c1_counterexample :
    (([1, 1] : List Nat).sum = ([2] : List Nat).sum ∧ durF cxT ≤ ([2] : List Nat).sum)
    ∧ (processTicks cxT wArea 0 [1, 1] wBuf).2 1 0 ≠ (processTicks cxT wArea 0 [2] wBuf).2 1 0 := by
  refine ⟨⟨by decide, by decide⟩, ?_⟩
  have hInner : ∀ (t : Nat) (buf : Buffer),
      renderAt cxInner wArea t buf 0 0 = Cell.mk (buf 0 0).glyph 9 9 := by
    intro t buf
    simp only [cxInner, renderAt, paintLeaf, effArea, Option.getD, cellAt]
    rw [fadeConst]
    simp [inArea]
  have hT1 : ∀ buf : Buffer, paintTick cxT wArea 0 1 buf 1 0 = Cell.mk (buf 0 0).glyph 9 9 := by
    intro buf
    simp only [cxT, paintTick, renderAt, offAt_lin_2_1_2, offAt_dzero]
    norm_num [inArea]
    exact hInner 1 buf
  have hT2 : ∀ (e : Nat) (buf : Buffer), paintTick cxT wArea e 2 buf 1 0 = buf 1 0 := by
    intro e buf
    simp only [cxT, paintTick, renderAt, offAt_lin_2_2_2, offAt_dzero]
    norm_num
  have hL : (processTicks cxT wArea 0 [1, 1] wBuf).2 1 0 = Cell.mk 65 9 9 := by
    rw [show (processTicks cxT wArea 0 [1, 1] wBuf).2
        = paintTick cxT wArea 1 2 (paintTick cxT wArea 0 1 wBuf) from rfl]
    rw [hT2, hT1]
    simp [wBuf]
  have hR : (processTicks cxT wArea 0 [2] wBuf).2 1 0 = Cell.mk 65 7 7 := by
    rw [show (processTicks cxT wArea 0 [2] wBuf).2 = paintTick cxT wArea 0 2 wBuf from rfl]
    rw [hT2]
    simp [wBuf]
  rw [hL, hR]
  simp only [ne_eq, Cell.mk.injEq]
  norm_num

/-- Claim C2: a Sequence of two children ticked once for
`duration(a) + k` (k within b's duration) paints exactly what fully
applying a and then applying b alone for elapsed k paints: the remainder
left after the active child completes is carried into the next child
within the same tick; and the sequence is complete at that elapsed time
exactly when k exhausts b. -/
theorem claim_c2 (a b : Fx) (k : Nat) (hk : k ≤ durF b) (defA : Rect) (buf : Buffer) :
    paintTick (.seqFx a b) defA 0 (durF a + k) buf
      = paintTick b defA 0 k (paintTick a defA 0 (durF a) buf)
    ∧ (completeF (.seqFx a b) (durF a + k) = true ↔ durF b ≤ k) := by
  constructor
  · simp only [paintTick]
    rw [if_neg (by omega), if_neg (by omega)]
    simp
  · rw [completeF_iff]
    simp only [durF]
    omega

/-- Witness for C2 at two concrete leaf effects with k = 1. -/
theorem claim_c2_witness :
    (1 ≤ durF wFxB)
    ∧ paintTick (.seqFx wFxA wFxB) wArea 0 (durF wFxA + 1) wBuf
        = paintTick wFxB wArea 0 1 (paintTick wFxA wArea 0 (durF wFxA) wBuf) := by
  exact ⟨by decide, (claim_c2 wFxA wFxB 1 (by decide) wArea wBuf).1⟩

/-- Claim C3, as amended: a Parallel of two children is complete exactly
when `max(duration(a), duration(b))` elapsed has been processed; each tick
hands the full delta to both children; cells outside b's write footprint
hold exactly what a alone paints there, unconditionally; and, provided the
second child computes each cell from that cell alone (contains no
Translate), cells outside a's write footprint hold exactly what b alone
paints there.  The proviso on the last conjunct is forced by
`claim_c3_counterexample`. -/
theorem claim_c3 (a b : Fx) :
    (∀ e, completeF (.parFx a b) e = true ↔ max (durF a) (durF b) ≤ e)
    ∧ (∀ defA e e2 buf, paintTick (.parFx a b) defA e e2 buf
        = paintTick b defA e e2 (paintTick a defA e e2 buf))
    ∧ (∀ defA e e2 buf x y, touches b defA x y = false →
        paintTick (.parFx a b) defA e e2 buf x y = paintTick a defA e e2 buf x y)
    ∧ (∀ defA e e2 buf x y, pointwiseFx b = true → touches a defA x y = false →
        paintTick (.parFx a b) defA e e2 buf x y = paintTick b defA e e2 buf x y) := by
  refine ⟨?_, fun defA e e2 buf => rfl, ?_, ?_⟩
  · intro e
    rw [completeF_iff]
    simp [durF]
  · intro defA e e2 buf x y h
    show paintTick b defA e e2 (paintTick a defA e e2 buf) x y = _
    rw [paintTick_untouched b defA x y h]
  · intro defA e e2 buf x y hp h
    show paintTick b defA e e2 (paintTick a defA e e2 buf) x y = _
    exact paintTick_pointwise b defA x y e e2 _ _ hp (paintTick_untouched a defA x y h e e2 buf)

/-- Witness for C3 at two concrete leaf effects with disjoint areas,
exercising both isolation directions. -/
theorem claim_c3_witness :
    (touches wFxB wArea 0 0 = false ∧ pointwiseFx wFxB = true ∧ touches wFxA wArea 5 5 = false)
    ∧ paintTick (.parFx wFxA wFxB) wArea 0 1 wBuf 0 0
        = paintTick wFxA wArea 0 1 wBuf 0 0
    ∧ paintTick (.parFx wFxA wFxB) wArea 0 1 wBuf 5 5
        = paintTick wFxB wArea 0 1 wBuf 5 5 := by
  exact ⟨⟨by decide, by decide, by decide⟩,
    (claim_c3 wFxA wFxB).2.2.1 wArea 0 1 wBuf 0 0 (by decide),
    (claim_c3 wFxA wFxB).2.2.2 wArea 0 1 wBuf 5 5 (by decide) (by decide)⟩

/-- Counterexample to C3 as stated: with b a Translate whose shifted
source cell lies in a's area, the cell (1,0) is touched only by b, yet
under `Parallel(a, b)` it reflects a's transform: b re-projects the cell a
painted, so the parallel result differs from applying b alone. -/
theorem claim_c3_counterexample :
    touches cxA wArea 1 0 = false
    ∧ paintTick (.parFx cxA cxB) wArea 0 1 wBuf 1 0 ≠ paintTick cxB wArea 0 1 wBuf 1 0 := by
  refine ⟨by decide, ?_⟩
  have hNoop : ∀ (t : Nat) (buf : Buffer) (x y : Nat),
      renderAt cxNoop wArea t buf x y = buf x y := by
    intro t buf x y
    exact renderAt_untouched cxNoop wArea x y
      (by simp [touches, cxNoop, effArea, inArea]) t buf
  have hB : ∀ buf : Buffer, paintTick cxB wArea 0 1 buf 1 0 = buf 0 0 := by
    intro buf
    simp only [cxB, paintTick, renderAt, offAt_lin_1_1_1, offAt_dzero]
    norm_num [inArea]
    simp [cxNoop, renderAt, paintLeaf, effArea, inArea]
  have hA : paintTick cxA wArea 0 1 wBuf 0 0 = Cell.mk 65 5 5 := by
    simp only [cxA, paintTick, paintLeaf, effArea, Option.getD, cellAt]
    rw [fadeConst]
    simp [inArea, wBuf]
  have hL : paintTick (.parFx cxA cxB) wArea 0 1 wBuf 1 0 = Cell.mk 65 5 5 := by
    rw [show paintTick (.parFx cxA cxB) wArea 0 1 wBuf
        = paintTick cxB wArea 0 1 (paintTick cxA wArea 0 1 wBuf) from rfl, hB, hA]
  have hR : paintTick cxB wArea 0 1 wBuf 1 0 = Cell.mk 65 7 7 := by
    rw [hB]
    simp [wBuf]
  rw [hL, hR]
  simp only [ne_eq, Cell.mk.injEq]
  norm_num

/-- Claim C4: Reversed(e) keeps e's duration, and at every elapsed x within
the duration it renders (both as a pure frame and as a tick's paint)
exactly e's frame at elapsed D - x; it is complete exactly when x reaches
D. -/
theorem claim_c4 (f : Fx) (x : Nat) (hx : x ≤ durF f) :
    durF (.revFx f) = durF f
    ∧ (∀ defA buf, renderAt (.revFx f) defA x buf = renderAt f defA (durF f - x) buf)
    ∧ (∀ defA e buf, paintTick (.revFx f) defA e x buf = renderAt f defA (durF f - x) buf)
    ∧ (completeF (.revFx f) x = true ↔ durF f ≤ x) := by
  refine ⟨rfl, ?_, ?_, ?_⟩
  · intro defA buf
    simp only [renderAt, min_eq_left hx]
  · intro defA e buf
    simp only [paintTick, min_eq_left hx]
  · rw [completeF_iff]
    simp [durF]

/-- Witness for C4 at a concrete 2 ms leaf effect and x = 1. -/
theorem claim_c4_witness :
    (1 ≤ durF wFxA)
    ∧ renderAt (.revFx wFxA) wArea 1 wBuf = renderAt wFxA wArea (durF wFxA - 1) wBuf := by
  exact ⟨by decide, (claim_c4 wFxA 1 (by decide)).2.1 wArea wBuf⟩

/-- Claim C5: ProlongStart(delay, inner) has total duration
delay + duration(inner); every tick ending strictly before the delay
paints inner's frame at local time 0, and once elapsed reaches the delay
inner is fed local time elapsed - delay (also at the pure frame level,
where natural subtraction holds local time at 0 during the delay). -/
theorem claim_c5 (d : Nat) (f : Fx) :
    durF (.prolongStart d f) = d + durF f
    ∧ (∀ defA e e2 buf, e2 < d →
        paintTick (.prolongStart d f) defA e e2 buf = renderAt f defA 0 buf)
    ∧ (∀ defA e e2 buf, d ≤ e2 →
        paintTick (.prolongStart d f) defA e e2 buf = paintTick f defA (e - d) (e2 - d) buf)
    ∧ (∀ defA t buf, renderAt (.prolongStart d f) defA t buf = renderAt f defA (t - d) buf) := by
  refine ⟨rfl, ?_, ?_, fun defA t buf => rfl⟩
  · intro defA e e2 buf h
    simp [paintTick, h]
  · intro defA e e2 buf h
    simp [paintTick, Nat.not_lt.mpr h]

/-- Witness for C5 at a 300 ms hold around a concrete leaf effect,
evaluated during the hold (1 ms) and after it (400 ms). -/
theorem claim_c5_witness :
    ((1 : Nat) < 300 ∧ (300 : Nat) ≤ 400)
    ∧ paintTick (.prolongStart 300 wFxA) wArea 0 1 wBuf = renderAt wFxA wArea 0 wBuf
    ∧ paintTick (.prolongStart 300 wFxA) wArea 0 400 wBuf
        = paintTick wFxA wArea (0 - 300) (400 - 300) wBuf := by
  have h := claim_c5 300 wFxA
  exact ⟨⟨by decide, by decide⟩,
    h.2.1 wArea 0 1 wBuf (by decide),
    h.2.2.1 wArea 0 400 wBuf (by decide)⟩

/-- Claim C6: for the Radial pattern with origin (0.5, 0.5) over a fixed
area, the cell sitting at the origin point has delay 0; between any two
cells of the area the delay is non-decreasing in Euclidean distance from
the origin (stated via squared distances, which order points identically);
and every returned delay lies in [0,1]. -/
theorem claim_c6 (A : Rect) (x y u v : Nat)
    (hxy : inArea A x y = true) (huv : inArea A u v = true) :
    (2 * x = 2 * A.x + A.w → 2 * y = 2 * A.y + A.h →
      Pattern.delay (.radial (1 / 2) (1 / 2)) A x y = 0)
    ∧ (sqDistQ (x : ℚ) (y : ℚ) (originX A (1 / 2)) (originY A (1 / 2)) ≤
        sqDistQ (u : ℚ) (v : ℚ) (originX A (1 / 2)) (originY A (1 / 2)) →
      Pattern.delay (.radial (1 / 2) (1 / 2)) A x y
        ≤ Pattern.delay (.radial (1 / 2) (1 / 2)) A u v)
    ∧ 0 ≤ Pattern.delay (.radial (1 / 2) (1 / 2)) A x y
    ∧ Pattern.delay (.radial (1 / 2) (1 / 2)) A x y ≤ 1 := by
  have hs : ∀ a b c d : ℚ, 0 ≤ sqDistQ a b c d := fun a b c d =>
    add_nonneg (mul_self_nonneg _) (mul_self_nonneg _)
  have hR : 0 ≤ maxCornerSq A (originX A (1 / 2)) (originY A (1 / 2)) :=
    le_trans (hs _ _ _ _) (le_trans (le_max_left _ _) (le_max_left _ _))
  refine ⟨?_, ?_, ?_, ?_⟩
  · intro h2x h2y
    have hx : (x : ℚ) = originX A (1 / 2) := by
      unfold originX
      have : ((2 * x : Nat) : ℚ) = ((2 * A.x + A.w : Nat) : ℚ) := by rw [h2x]
      push_cast at this
      linarith
    have hy : (y : ℚ) = originY A (1 / 2) := by
      unfold originY
      have : ((2 * y : Nat) : ℚ) = ((2 * A.y + A.h : Nat) : ℚ) := by rw [h2y]
      push_cast at this
      linarith
    simp only [Pattern.delay, radialDelay]
    rw [show sqDistQ (x : ℚ) (y : ℚ) (originX A (1 / 2)) (originY A (1 / 2)) = 0 by
      rw [hx, hy]; unfold sqDistQ; ring]
    rw [zero_div]
    exact min_eq_right (by norm_num)
  · intro hmono
    simp only [Pattern.delay, radialDelay]
    refine min_le_min (le_refl 1) ?_
    rcases hR.eq_or_lt with h0 | h0
    · rw [← h0, div_zero, div_zero]
    · exact (div_le_div_right h0).mpr hmono
  · simp only [Pattern.delay, radialDelay]
    exact le_min (by norm_num) (div_nonneg (hs _ _ _ _) hR)
  · simp only [Pattern.delay, radialDelay]
    exact min_le_left _ _

/-- Witness for C6 on a 4 by 4 area at (0,0): the origin cell (2,2) has
delay 0 and its delay is at most that of the corner cell (0,0). -/
theorem claim_c6_witness :
    Pattern.delay (.radial (1 / 2) (1 / 2)) ⟨0, 0, 4, 4⟩ 2 2 = 0
    ∧ Pattern.delay (.radial (1 / 2) (1 / 2)) ⟨0, 0, 4, 4⟩ 2 2
        ≤ Pattern.delay (.radial (1 / 2) (1 / 2)) ⟨0, 0, 4, 4⟩ 0 0 := by
  have h := claim_c6 ⟨0, 0, 4, 4⟩ 2 2 0 0 (by decide) (by decide)
  exact ⟨h.1 (by decide) (by decide),
    h.2.1 (by norm_num [sqDistQ, originX, originY])⟩

/-- Claim C7: on every invocation, App::render performs exactly one
process_effects call, with the fixed 16 ms elapsed duration, the frame's
buffer (after the widget draw), and the frame's full area as the default
target area; it consumes nothing back except the mutated buffer (the
counter is untouched and the frame keeps its area). -/
theorem claim_c7 (draw : Nat → Buffer → Buffer) (s : AppState) (fr : Frame) :
    App.render draw s fr
      = ({ counter := s.counter,
           effects := (s.effects.processEffects 16 (draw s.counter fr.buf) fr.area).1 },
         { buf := (s.effects.processEffects 16 (draw s.counter fr.buf) fr.area).2,
           area := fr.area }) := rfl

/-- Claim C8: the App's effect manager starts empty; add_effect always
succeeds, appending its argument as a new root at elapsed 0 for every
manager state; and handle_events inserts a root exactly when the key is
'f' (via trigger_fire_effect), leaving the roots unchanged otherwise. -/
theorem claim_c8 :
    AppState.init.effects.roots = []
    ∧ (∀ (m : EffectManager) (f : Fx), (m.addEffect f).roots = m.roots ++ [(f, 0)])
    ∧ (∀ (s : AppState) (k : KeyCode),
        (App.handleEvents s k).effects.roots
          = if k = KeyCode.char 'f' then s.effects.roots ++ [(fireEffect, 0)]
            else s.effects.roots) := by
  refine ⟨rfl, fun m f => rfl, ?_⟩
  intro s k
  cases k with
  | left => simp [App.handleEvents]
  | right => simp [App.handleEvents]
  | other => simp [App.handleEvents]
  | char c =>
      by_cases hc : c = 'f'
      · subst hc
        simp [App.handleEvents, App.triggerFireEffect, EffectManager.addEffect]
      · simp [App.handleEvents, hc]

/-- Claim C9: a Right key saturates the counter up at 255 and a Left key
saturates it down at 0 (min/max forms), and the counter never leaves the
u8 range, so no wrap or overflow panic can occur at either bound. -/
theorem claim_c9 (s : AppState) :
    (App.handleEvents s .right).counter = min (s.counter + 1) 255
    ∧ ((App.handleEvents s .left).counter : ℤ) = max ((s.counter : ℤ) - 1) 0
    ∧ (∀ k, s.counter ≤ 255 → (App.handleEvents s k).counter ≤ 255) := by
  refine ⟨rfl, ?_, ?_⟩
  · show ((u8SatSub s.counter 1 : Nat) : ℤ) = _
    unfold u8SatSub
    omega
  · intro k h
    cases k with
    | left =>
        show u8SatSub s.counter 1 ≤ 255
        unfold u8SatSub
        omega
    | right =>
        show u8SatAdd s.counter 1 ≤ 255
        unfold u8SatAdd
        omega
    | char c =>
        by_cases hc : c = 'f'
        · subst hc
          simpa [App.handleEvents, App.triggerFireEffect] using h
        · simpa [App.handleEvents, hc] using h
    | other => exact h

/-- Witness for C9: from the initial state, a Left key keeps the counter in
range. -/
theorem claim_c9_witness :
    AppState.init.counter ≤ 255
    ∧ (App.handleEvents AppState.init .left).counter ≤ 255 := by
  exact ⟨by decide, (claim_c9 AppState.init).2.2 .left (by decide)⟩

/-- Claim C10: no callback of App can panic from a RefCell double borrow:
for every key event, handle_events' borrow trace (which drops the counter
borrow before trigger_fire_effect borrows the effects cell) runs without
panic with each RefCell borrowed at most once at any point, and so does
render's trace (shared counter borrow, then mutable effects borrow, at
disjoint cells). -/
theorem claim_c10 :
    (∀ k, runChecked borrowFree (handleEventsTrace k) = true)
    ∧ runChecked borrowFree renderTrace = true := by
  constructor
  · intro k
    cases k with
    | left => decide
    | right => decide
    | other => decide
    | char c =>
        by_cases hc : c = 'f'
        · subst hc
          decide
        · simp only [handleEventsTrace, if_neg hc]
          decide
  · decide

end RustEffects
